import Mathlib

/-!
Verification of the `try_join!` combinator of `monoio`
(`src/monoio/src/macros/try_join.rs`).

The macro expands, for each arity, into a `poll_fn` closure over a tuple of
`maybe_done`-wrapped branch futures.  The closure scans the branches in
ascending index order: each branch is polled; a still-pending branch sets
`is_pending` and the scan continues; a branch whose output is an `Err` makes
the closure return `Ready(Err(e))` immediately, taking the error out of the
branch.  After the scan the closure returns `Pending` when `is_pending` was
set, and otherwise builds the success tuple by `take_output` on every branch
in index order.

We embed this shallowly: a branch future is a deterministic behaviour
(`Nat → Poll (Except E S)`, the outcome of each successive poll of the inner
future), the per-arity unrolled loop becomes a structurally recursive scan
over a list of `MaybeDone` states, and the `expect`/`unwrap` calls that can
panic are modelled by an `Option` result (`none` = panic).  The scan also
records the trace of branch indices polled, in order, which is the
formalisation of "branch i is polled (before branch j)" used by the
temporal claims.  The heterogeneous success types `S₀…Sₙ₋₁` of the macro are
embedded at a single (arbitrary) success type `S`, which preserves every
claim considered here (arity, order, short-circuit and state content).
-/

namespace TryJoin

universe u

/-- Result of polling a future once: still pending, or ready with a value.
This mirrors `Poll` as used by the generated closure
(`Poll::{Ready, Pending}` in try_join.rs). -/
inductive Poll (α : Type u) where
  | pending : Poll α
  | ready : α → Poll α
deriving DecidableEq

variable {S E : Type}

/-- A deterministic branch future, given by the outcome of each successive
poll: `b k` is what the future's `poll` returns the `(k+1)`-th time it is
polled.  The combinator polls a branch future only until it first returns
`ready`, so only the prefix of `b` up to that point is ever consulted. -/
def Behavior (S E : Type) : Type := Nat → Poll (Except E S)

/-- Advance a behaviour past one pending poll of the inner future. -/
def shift (b : Behavior S E) : Behavior S E := fun k => b (k + 1)

/-- Modelled from the spec: the three-state per-branch wrapper `MaybeDone`
(`maybe_done` comes from `monoio::macros::support`, whose source is not in
this tree; spec section 4.1 gives its contract).  `future` holds the
not-yet-finished computation, `done` holds the terminal `Result`, `gone`
means the owner has extracted the output. -/
inductive MaybeDone (S E : Type) where
  | future : Behavior S E → MaybeDone S E
  | done : Except E S → MaybeDone S E
  | gone : MaybeDone S E

/-- Modelled from the spec: `maybe_done($e)` wraps a branch future into the
initial `future` state (line 77 of try_join.rs wraps every branch). -/
def maybe_done (b : Behavior S E) : MaybeDone S E := .future b

/-- Modelled from the spec: polling a `MaybeDone` (spec section 4.1,
`advance`).  In the `future` state the inner future is polled; on `ready`
the output is stored and the wrapper reports complete, on `pending` it
reports incomplete.  In the `done` state polling is a complete no-op.
Polling in the `gone` state is a fatal contract violation, modelled as
`none`.  The `Bool` is the `is_pending()` view of the poll result used at
line 93 of try_join.rs. -/
def MaybeDone.poll : MaybeDone S E → Option (MaybeDone S E × Bool)
  | .future b =>
    match b 0 with
    | .pending => some (.future (shift b), true)
    | .ready out => some (.done out, false)
  | .done out => some (.done out, false)
  | .gone => none

/-- Modelled from the spec: `output_mut` (spec section 4.1 `peek_output`),
a borrow of the stored output when in `done`, otherwise `None`. -/
def MaybeDone.output_mut : MaybeDone S E → Option (Except E S)
  | .done out => some out
  | _ => none

/-- Modelled from the spec: `take_output` (spec section 4.1), moving the
stored output out and transitioning `done → gone`; in any other state it
returns `None` and leaves the state unchanged. -/
def MaybeDone.take_output : MaybeDone S E → Option (Except E S) × MaybeDone S E
  | .done out => (some out, .gone)
  | m => (none, m)

/-- Result.is_err, as called on the borrowed output at line 95 of
try_join.rs. -/
def isErr : Except E S → Bool
  | .error _ => true
  | .ok _ => false

/-- Outcome of the per-branch scan loop of the generated poll closure
(lines 84–98 of try_join.rs): either the early `Ready(Err(e))` return of
line 95, or falling through to line 100 with the final `is_pending` flag.
Both carry the updated branch states and the trace of the branch indices
that were polled, in the order they were polled. -/
inductive ScanResult (S E : Type) where
  | earlyErr : E → List (MaybeDone S E) → List Nat → ScanResult S E
  | fellThrough : Bool → List (MaybeDone S E) → List Nat → ScanResult S E

/-- Reattach the already-scanned head branch (updated state `m'`, pending
flag `pend`, index `start`) to the scan result of the remaining branches.
The `pend || p` is the accumulation of the mutable `is_pending` flag. -/
def scanCons (start : Nat) (m' : MaybeDone S E) (pend : Bool) :
    Option (ScanResult S E) → Option (ScanResult S E)
  | none => none
  | some (.earlyErr e sts tr) => some (.earlyErr e (m' :: sts) (start :: tr))
  | some (.fellThrough p sts tr) => some (.fellThrough (pend || p) (m' :: sts) (start :: tr))

/-- The unrolled per-branch loop of the generated closure (lines 84–98 of
try_join.rs), one list element per macro-generated iteration, `start` being
the index of the first branch in the list.  Each branch is polled; if the
poll is pending the flag is set and the scan continues; otherwise the
output is inspected (`output_mut ... is_err`, line 95) and on an error the
scan returns early with the error taken out of the branch (line 96).
`none` models a panicking `expect`/`unwrap`. -/
def scan (start : Nat) : List (MaybeDone S E) → Option (ScanResult S E)
  | [] => some (.fellThrough false [] [])
  | m :: rest =>
    match m.poll with
    | none => none
    | some (m', true) => scanCons start m' true (scan (start + 1) rest)
    | some (m', false) =>
      match m'.output_mut with
      | none => none
      | some out =>
        if isErr out then
          match m'.take_output with
          | (some (.error e), m'') => some (.earlyErr e (m'' :: rest) [start])
          | _ => none
        else
          scanCons start m' false (scan (start + 1) rest)

/-- The success-tuple build of lines 103–116 of try_join.rs: take each
branch's output in index order; `none` models the
`expect("expected completed future")` and `expect("expected Ok(_)")`
panics. -/
def buildTuple : List (MaybeDone S E) → Option (List S × List (MaybeDone S E))
  | [] => some ([], [])
  | m :: rest =>
    match m.take_output with
    | (some (.ok s), m') =>
      match buildTuple rest with
      | none => none
      | some (ss, sts) => some (s :: ss, m' :: sts)
    | _ => none

/-- One invocation of the poll closure the macro hands to `poll_fn`
(lines 81–118 of try_join.rs): scan all branches from index 0; an early
error becomes `Ready(Err(e))`; otherwise `Pending` when `is_pending` was
set, else `Ready(Ok(tuple))` from the tuple build.  Returns the poll
result, the updated branch states and the poll trace; `none` models a
panic. -/
def tryJoinPoll (sts : List (MaybeDone S E)) :
    Option (Poll (Except E (List S)) × List (MaybeDone S E) × List Nat) :=
  match scan 0 sts with
  | none => none
  | some (.earlyErr e sts' tr) => some (.ready (.error e), sts', tr)
  | some (.fellThrough true sts' tr) => some (.pending, sts', tr)
  | some (.fellThrough false sts' tr) =>
    match buildTuple sts' with
    | none => none
    | some (ss, sts'') => some (.ready (.ok ss), sts'', tr)

/-- Outcome of repeatedly polling the combinator until it resolves:
`panicked` models a fired `expect`/`unwrap`, `ranOut` means the fuel was
exhausted with the combinator still pending, `resolved` carries the
delivered value and the branch states at the moment of resolution. -/
inductive RunResult (S E : Type) where
  | panicked : RunResult S E
  | ranOut : List (MaybeDone S E) → RunResult S E
  | resolved : Except E (List S) → List (MaybeDone S E) → RunResult S E

/-- Drive the combinator: invoke the generated poll closure until it
returns `Ready` (the `.await` of the `poll_fn` future), with `fuel`
bounding the number of invocations. -/
def tryJoinRun : Nat → List (MaybeDone S E) → RunResult S E
  | 0, sts => .ranOut sts
  | fuel + 1, sts =>
    match tryJoinPoll sts with
    | none => .panicked
    | some (.ready r, sts', _) => .resolved r sts'
    | some (.pending, sts', _) => tryJoinRun fuel sts'

/-- The value a run delivered, if it resolved. -/
def RunResult.value? : RunResult S E → Option (Except E (List S))
  | .resolved r _ => some r
  | _ => none

/-- Whether a run hit one of the modelled panics. -/
def RunResult.isPanic : RunResult S E → Bool
  | .panicked => true
  | _ => false

/-- The initial branch states: every branch wrapped by `maybe_done`
(line 77 of try_join.rs). -/
def mkState (bs : List (Behavior S E)) : List (MaybeDone S E) :=
  bs.map maybe_done

/-- The behaviour that is pending for `k` polls and then ready with `out`
(the `after(k, v)` futures of the spec's scenarios; `after 0 out` is
`ok(v)` / `err(e)`). -/
def after (k : Nat) (out : Except E S) : Behavior S E :=
  fun j => if j < k then .pending else .ready out

/-- The state a single (not `gone`) branch is in after being polled once:
a pending inner future advances by one poll, a ready inner future's output
is stored, a stored output stays stored. -/
def stepm : MaybeDone S E → MaybeDone S E
  | .future b =>
    match b 0 with
    | .pending => .future (shift b)
    | .ready out => .done out
  | .done out => .done out
  | .gone => .gone

/-- Whether polling this branch now would report pending. -/
def pendOf : MaybeDone S E → Bool
  | .future b =>
    match b 0 with
    | .pending => true
    | .ready _ => false
  | _ => false

/-- Whether this branch, once polled, holds an `Err` output. -/
def errAfter (m : MaybeDone S E) : Bool :=
  match stepm m with
  | .done (.error _) => true
  | _ => false

/-- Whether a branch is still in the `future` (not yet completed) state. -/
def isPending : MaybeDone S E → Bool
  | .future _ => true
  | _ => false

/-- The behaviour `b` first returns ready on its `(k+1)`-th poll, with
output `out`. -/
def completesAt (b : Behavior S E) (k : Nat) (out : Except E S) : Prop :=
  b k = .ready out ∧ ∀ j, j < k → b j = .pending

/-- Branch state `m` will, within `K` more polls, have completed with
`Ok s` (it already has, or its future completes with `Ok s` in at most `K`
polls). -/
def willOkIn (K : Nat) (m : MaybeDone S E) (s : S) : Prop :=
  m = .done (.ok s) ∨ ∃ b k, m = .future b ∧ k ≤ K ∧ completesAt b k (.ok s)

/-- A successful poll of a branch yields exactly the stepped state and the
pending flag of that branch. -/
theorem poll_some {m m' : MaybeDone S E} {pd : Bool}
    (h : m.poll = some (m', pd)) : m' = stepm m ∧ pd = pendOf m := by
  cases m with
  | future b =>
    cases hb : b 0 with
    | pending =>
      simp [MaybeDone.poll, hb] at h
      simp [stepm, pendOf, hb, h.1.symm, h.2.symm]
    | ready out =>
      simp [MaybeDone.poll, hb] at h
      simp [stepm, pendOf, hb, h.1.symm, h.2.symm]
  | done out =>
    simp [MaybeDone.poll] at h
    simp [stepm, pendOf, h.1.symm, h.2.symm]
  | gone => simp [MaybeDone.poll] at h

/-- A branch that can be polled is not `gone`. -/
theorem poll_some_ne_gone {m : MaybeDone S E} {pr : MaybeDone S E × Bool}
    (h : m.poll = some pr) : m ≠ .gone := by
  rintro rfl; simp [MaybeDone.poll] at h

/-- Stepping never extracts an output: a non-`gone` branch stays
non-`gone` after a poll. -/
theorem stepm_ne_gone {m : MaybeDone S E} (h : m ≠ .gone) :
    stepm m ≠ .gone := by
  cases m with
  | future b => cases hb : b 0 <;> simp [stepm, hb]
  | done out => simp [stepm]
  | gone => exact absurd rfl h

/-- A branch whose poll reports pending is still a `future` afterwards. -/
theorem stepm_of_pendOf {m : MaybeDone S E} (h : pendOf m = true) :
    ∃ b, stepm m = .future b := by
  cases m with
  | future b =>
    cases hb : b 0 with
    | pending => exact ⟨shift b, by simp [stepm, hb]⟩
    | ready out => simp [pendOf, hb] at h
  | done out => simp [pendOf] at h
  | gone => simp [pendOf] at h

/-- A pending branch holds no `Err` output after the poll. -/
theorem errAfter_of_pendOf {m : MaybeDone S E} (h : pendOf m = true) :
    errAfter m = false := by
  obtain ⟨b, hb⟩ := stepm_of_pendOf h
  simp [errAfter, hb]

/-- A non-`gone` branch whose poll does not report pending holds an output
afterwards. -/
theorem stepm_of_not_pendOf {m : MaybeDone S E} (hg : m ≠ .gone)
    (h : pendOf m = false) : ∃ out, stepm m = .done out := by
  cases m with
  | future b =>
    cases hb : b 0 with
    | pending => simp [pendOf, hb] at h
    | ready out => exact ⟨out, by simp [stepm, hb]⟩
  | done out => exact ⟨out, by simp [stepm]⟩
  | gone => exact absurd rfl hg

/-- Characterisation of a scan that fell through the loop (reached
line 100 of try_join.rs): every branch was polled exactly once in index
order, every branch state is stepped once, the final `is_pending` flag is
the disjunction of the per-branch pending reports, and no branch holds an
`Err` output after its poll. -/
theorem scan_fellThrough_spec :
    ∀ (sts : List (MaybeDone S E)) (start : Nat) (p : Bool)
      (sts' : List (MaybeDone S E)) (tr : List Nat),
      scan start sts = some (.fellThrough p sts' tr) →
      tr = List.range' start sts.length ∧ sts' = sts.map stepm ∧
        p = sts.any pendOf ∧ ∀ m ∈ sts, errAfter m = false
  | [], start, p, sts', tr, h => by
    simp [scan] at h
    obtain ⟨rfl, rfl, rfl⟩ := h
    simp
  | m :: rest, start, p, sts', tr, h => by
    cases hm : m.poll with
    | none => simp [scan, hm] at h
    | some pr =>
      obtain ⟨m', pd⟩ := pr
      obtain ⟨hm', hpd⟩ := poll_some hm
      have hg : m ≠ .gone := poll_some_ne_gone hm
      cases pd with
      | true =>
        simp only [scan, hm] at h
        cases hrec : scan (start + 1) rest with
        | none => rw [hrec] at h; simp [scanCons] at h
        | some r =>
          cases r with
          | earlyErr e sts0 tr0 => rw [hrec] at h; simp [scanCons] at h
          | fellThrough p0 sts0 tr0 =>
            rw [hrec] at h; simp [scanCons] at h
            obtain ⟨rfl, rfl, rfl⟩ := h
            obtain ⟨ih1, ih2, ih3, ih4⟩ :=
              scan_fellThrough_spec rest (start + 1) p0 sts0 tr0 hrec
            refine ⟨?_, ?_, ?_, ?_⟩
            · rw [ih1]; simp [List.range'_succ]
            · rw [ih2, hm']; simp
            · simp [← hpd]
            · intro x hx
              rcases List.mem_cons.mp hx with rfl | hx
              · exact errAfter_of_pendOf hpd.symm
              · exact ih4 x hx
      | false =>
        simp only [scan, hm] at h
        obtain ⟨out, hout⟩ := stepm_of_not_pendOf hg hpd.symm
        rw [hm', hout] at h
        simp only [MaybeDone.output_mut] at h
        cases hie : isErr out with
        | true =>
          simp only [hie, if_true] at h
          cases out with
          | error e => simp [MaybeDone.take_output] at h
          | ok s => simp [isErr] at hie
        | false =>
          simp only [hie, Bool.false_eq_true, if_false] at h
          cases hrec : scan (start + 1) rest with
          | none => rw [hrec] at h; simp [scanCons] at h
          | some r =>
            cases r with
            | earlyErr e sts0 tr0 => rw [hrec] at h; simp [scanCons] at h
            | fellThrough p0 sts0 tr0 =>
              rw [hrec] at h; simp [scanCons] at h
              obtain ⟨rfl, rfl, rfl⟩ := h
              obtain ⟨ih1, ih2, ih3, ih4⟩ :=
                scan_fellThrough_spec rest (start + 1) p0 sts0 tr0 hrec
              refine ⟨?_, ?_, ?_, ?_⟩
              · rw [ih1]; simp [List.range'_succ]
              · rw [ih2]; simp [hout]
              · simp [← hpd, ih3]
              · intro x hx
                rcases List.mem_cons.mp hx with rfl | hx
                · cases out with
                  | error e => simp [isErr] at hie
                  | ok s => simp [errAfter, hout]
                · exact ih4 x hx

/-- Characterisation of a scan that returned early with an error
(line 95–96 of try_join.rs): there is a branch index `k` such that exactly
branches `start..start+k` were polled in order, branch `k` completed with
`Err e` on this poll, no earlier branch holds an `Err` after its poll, the
error was taken out of branch `k` (its state is `gone`), branches before
`k` are stepped once and branches after `k` are untouched. -/
theorem scan_earlyErr_spec :
    ∀ (sts : List (MaybeDone S E)) (start : Nat) (e : E)
      (sts' : List (MaybeDone S E)) (tr : List Nat),
      scan start sts = some (.earlyErr e sts' tr) →
      ∃ k, k < sts.length ∧ tr = List.range' start (k + 1) ∧
        stepm (sts.getD k .gone) = .done (.error e) ∧
        pendOf (sts.getD k .gone) = false ∧
        (∀ j, j < k → errAfter (sts.getD j .gone) = false) ∧
        sts' = (sts.take k).map stepm ++ .gone :: sts.drop (k + 1)
  | [], start, e, sts', tr, h => by simp [scan] at h
  | m :: rest, start, e, sts', tr, h => by
    cases hm : m.poll with
    | none => simp [scan, hm] at h
    | some pr =>
      obtain ⟨m', pd⟩ := pr
      obtain ⟨hm', hpd⟩ := poll_some hm
      have hg : m ≠ .gone := poll_some_ne_gone hm
      cases pd with
      | true =>
        simp only [scan, hm] at h
        cases hrec : scan (start + 1) rest with
        | none => rw [hrec] at h; simp [scanCons] at h
        | some r =>
          cases r with
          | fellThrough p0 sts0 tr0 => rw [hrec] at h; simp [scanCons] at h
          | earlyErr e0 sts0 tr0 =>
            rw [hrec] at h; simp [scanCons] at h
            obtain ⟨rfl, rfl, rfl⟩ := h
            obtain ⟨k0, hk0, htr, hst, hpf, herr, hsts⟩ :=
              scan_earlyErr_spec rest (start + 1) e0 sts0 tr0 hrec
            refine ⟨k0 + 1, by simpa using hk0, ?_, ?_, ?_, ?_, ?_⟩
            · rw [htr]; simp [List.range'_succ]
            · simpa using hst
            · simpa using hpf
            · intro j hj
              cases j with
              | zero => exact errAfter_of_pendOf hpd.symm
              | succ j => simpa using herr j (by omega)
            · rw [hsts, hm']
              simp
      | false =>
        simp only [scan, hm] at h
        obtain ⟨out, hout⟩ := stepm_of_not_pendOf hg hpd.symm
        rw [hm', hout] at h
        simp only [MaybeDone.output_mut] at h
        cases hie : isErr out with
        | true =>
          simp only [hie, if_true] at h
          cases out with
          | ok s => simp [isErr] at hie
          | error e0 =>
            simp [MaybeDone.take_output] at h
            obtain ⟨rfl, rfl, rfl⟩ := h
            refine ⟨0, by simp, by simp [List.range'_one], ?_, ?_, ?_, ?_⟩
            · simpa using hout
            · simpa using hpd.symm
            · intro j hj; omega
            · simp
        | false =>
          simp only [hie, Bool.false_eq_true, if_false] at h
          cases hrec : scan (start + 1) rest with
          | none => rw [hrec] at h; simp [scanCons] at h
          | some r =>
            cases r with
            | fellThrough p0 sts0 tr0 => rw [hrec] at h; simp [scanCons] at h
            | earlyErr e0 sts0 tr0 =>
              rw [hrec] at h; simp [scanCons] at h
              obtain ⟨rfl, rfl, rfl⟩ := h
              obtain ⟨k0, hk0, htr, hst, hpf, herr, hsts⟩ :=
                scan_earlyErr_spec rest (start + 1) e0 sts0 tr0 hrec
              refine ⟨k0 + 1, by simpa using hk0, ?_, ?_, ?_, ?_, ?_⟩
              · rw [htr]; simp [List.range'_succ]
              · simpa using hst
              · simpa using hpf
              · intro j hj
                cases j with
                | zero =>
                  cases out with
                  | error e1 => simp [isErr] at hie
                  | ok s => simpa using errAfter.eq_def (m := m) ▸ (by simp [errAfter, hout])
                | succ j => simpa using herr j (by omega)
              · rw [hsts]
                simp [hout]

/-- Polling a non-`gone` branch is total and deterministic. -/
theorem poll_of_ne_gone {m : MaybeDone S E} (h : m ≠ .gone) :
    m.poll = some (stepm m, pendOf m) := by
  cases m with
  | future b => cases hb : b 0 <;> simp [MaybeDone.poll, stepm, pendOf, hb]
  | done out => simp [MaybeDone.poll, stepm, pendOf]
  | gone => exact absurd rfl h

/-- The scan loop never panics when no branch has had its output taken. -/
theorem scan_isSome :
    ∀ (sts : List (MaybeDone S E)) (start : Nat),
      (∀ m ∈ sts, m ≠ .gone) → (scan start sts).isSome
  | [], start, _ => by simp [scan]
  | m :: rest, start, hng => by
    have hg : m ≠ .gone := hng m (by simp)
    have hrest : ∀ x ∈ rest, x ≠ MaybeDone.gone := fun x hx => hng x (by simp [hx])
    have ih := scan_isSome rest (start + 1) hrest
    simp only [scan, poll_of_ne_gone hg]
    cases hpd : pendOf m with
    | true =>
      cases hrec : scan (start + 1) rest with
      | none => rw [hrec] at ih; simp at ih
      | some r => cases r <;> simp [scanCons]
    | false =>
      obtain ⟨out, hout⟩ := stepm_of_not_pendOf hg hpd
      rw [hout]
      simp only [MaybeDone.output_mut]
      cases out with
      | error e => simp [isErr, MaybeDone.take_output]
      | ok s =>
        simp only [isErr, Bool.false_eq_true, if_false]
        cases hrec : scan (start + 1) rest with
        | none => rw [hrec] at ih; simp at ih
        | some r => cases r <;> simp [scanCons]

/-- The tuple build succeeds on a list of branches that all completed with
`Ok`, producing the outputs in index order and leaving every branch
`gone`. -/
theorem buildTuple_ok : ∀ (ss : List S),
    buildTuple (ss.map (fun s => (MaybeDone.done (.ok s) : MaybeDone S E))) =
      some (ss, ss.map fun _ => MaybeDone.gone)
  | [] => by simp [buildTuple]
  | s :: ss => by
    simp [buildTuple, MaybeDone.take_output, buildTuple_ok ss]

/-- After a successful tuple build every branch state is `gone`. -/
theorem buildTuple_gone :
    ∀ (sts sts' : List (MaybeDone S E)) (ss : List S),
      buildTuple sts = some (ss, sts') → ∀ m ∈ sts', m = .gone
  | [], sts', ss, h => by
    simp [buildTuple] at h
    obtain ⟨-, h2⟩ := h
    subst h2
    simp
  | m :: rest, sts', ss, h => by
    cases m with
    | future b => simp [buildTuple, MaybeDone.take_output] at h
    | gone => simp [buildTuple, MaybeDone.take_output] at h
    | done out =>
      cases out with
      | error e => simp [buildTuple, MaybeDone.take_output] at h
      | ok s =>
        simp only [buildTuple, MaybeDone.take_output] at h
        cases hrec : buildTuple rest with
        | none => rw [hrec] at h; simp at h
        | some r =>
          obtain ⟨ss0, sts0⟩ := r
          rw [hrec] at h; simp at h
          obtain ⟨-, h2⟩ := h
          subst h2
          intro x hx
          rcases List.mem_cons.mp hx with rfl | hx
          · rfl
          · exact buildTuple_gone rest sts0 ss0 hrec x hx

/-- Advancing a time bound: completion in `k+1` polls means completion of
the shifted future in `k` polls. -/
theorem completesAt_shift {b : Behavior S E} {k : Nat} {out : Except E S}
    (h : completesAt b (k + 1) out) : completesAt (shift b) k out :=
  ⟨h.1, fun j hj => h.2 (j + 1) (by omega)⟩

/-- `willOkIn` is monotone in the time bound. -/
theorem willOkIn_mono {K K' : Nat} (hK : K ≤ K') {m : MaybeDone S E} {s : S}
    (h : willOkIn K m s) : willOkIn K' m s := by
  rcases h with h | ⟨b, k, hm, hk, hc⟩
  · exact Or.inl h
  · exact Or.inr ⟨b, k, hm, le_trans hk hK, hc⟩

/-- A branch that will complete with `Ok` has not had its output taken. -/
theorem willOkIn_ne_gone {K : Nat} {m : MaybeDone S E} {s : S}
    (h : willOkIn K m s) : m ≠ .gone := by
  rcases h with h | ⟨b, k, hm, -, -⟩
  · simp [h]
  · simp [hm]

/-- A branch that will complete with `Ok` never holds an `Err` after a
poll. -/
theorem willOkIn_errAfter {K : Nat} {m : MaybeDone S E} {s : S}
    (h : willOkIn K m s) : errAfter m = false := by
  rcases h with h | ⟨b, k, hm, -, hc⟩
  · simp [h, errAfter, stepm]
  · subst hm
    cases k with
    | zero => simp [errAfter, stepm, hc.1]
    | succ k =>
      have hb0 : b 0 = Poll.pending := hc.2 0 (by omega)
      simp [errAfter, stepm, hb0]

/-- Stepping preserves `willOkIn`, decreasing the bound. -/
theorem willOkIn_stepm {K : Nat} {m : MaybeDone S E} {s : S}
    (h : willOkIn (K + 1) m s) : willOkIn K (stepm m) s := by
  rcases h with h | ⟨b, k, hm, hk, hc⟩
  · exact Or.inl (by simp [h, stepm])
  · subst hm
    cases k with
    | zero => exact Or.inl (by simp [stepm, hc.1])
    | succ k =>
      have hb0 : b 0 = Poll.pending := hc.2 0 (by omega)
      exact Or.inr ⟨shift b, k, by simp [stepm, hb0], by omega, completesAt_shift hc⟩

/-- With the bound exhausted, the branch completes with `Ok` on this very
poll. -/
theorem willOkIn_zero {m : MaybeDone S E} {s : S}
    (h : willOkIn 0 m s) : stepm m = .done (.ok s) := by
  rcases h with h | ⟨b, k, hm, hk, hc⟩
  · simp [h, stepm]
  · subst hm
    have hk0 : k = 0 := by omega
    subst hk0
    simp [stepm, hc.1]

/-- A branch that completes with `Ok` on this poll does not report
pending. -/
theorem willOkIn_zero_pendOf {m : MaybeDone S E} {s : S}
    (h : willOkIn 0 m s) : pendOf m = false := by
  rcases h with h | ⟨b, k, hm, hk, hc⟩
  · simp [h, pendOf]
  · subst hm
    have hk0 : k = 0 := by omega
    subst hk0
    simp [pendOf, hc.1]

/-- A branch that will complete with `Ok` and does not report pending
completes with `Ok` on this poll. -/
theorem willOkIn_pendOf_false {K : Nat} {m : MaybeDone S E} {s : S}
    (h : willOkIn K m s) (hp : pendOf m = false) :
    stepm m = .done (.ok s) := by
  rcases h with h | ⟨b, k, hm, hk, hc⟩
  · simp [h, stepm]
  · subst hm
    cases k with
    | zero => simp [stepm, hc.1]
    | succ k =>
      have hb0 : b 0 = Poll.pending := hc.2 0 (by omega)
      simp [pendOf, hb0] at hp

/-- Every left element of a `Forall₂` list is related to something. -/
theorem forall₂_exists_left {α β : Type} {R : α → β → Prop} :
    ∀ {l₁ : List α} {l₂ : List β},
      List.Forall₂ R l₁ l₂ → ∀ a ∈ l₁, ∃ b, R a b := by
  intro l₁ l₂ h
  induction h with
  | nil => simp
  | cons hr _ ih =>
    intro a ha
    rcases List.mem_cons.mp ha with rfl | ha
    · exact ⟨_, hr⟩
    · exact ih a ha

/-- Stepping every branch once preserves the all-Ok invariant, decreasing
the bound. -/
theorem forall₂_step {K : Nat} :
    ∀ {sts : List (MaybeDone S E)} {ss : List S},
      List.Forall₂ (willOkIn (K + 1)) sts ss →
      List.Forall₂ (willOkIn K) (sts.map stepm) ss := by
  intro sts ss h
  induction h with
  | nil => simp
  | cons hr _ ih => exact List.Forall₂.cons (willOkIn_stepm hr) ih

/-- When no branch reports pending, this poll completes every branch with
its `Ok` output. -/
theorem forall₂_stepm_done :
    ∀ {sts : List (MaybeDone S E)} {ss : List S} {K : Nat},
      List.Forall₂ (willOkIn K) sts ss → (∀ m ∈ sts, pendOf m = false) →
      sts.map stepm = ss.map (fun s => MaybeDone.done (.ok s)) := by
  intro sts ss K h
  induction h with
  | nil => simp
  | cons hr hrest ih =>
    intro hp
    have h1 := willOkIn_pendOf_false hr (hp _ (by simp))
    have h2 := ih (fun m hm => hp m (by simp [hm]))
    simp [h1, h2]

/-- One poll of an all-Ok configuration: either some branch is still
pending and the closure returns `Pending` with every branch stepped once,
or the closure resolves with the success tuple in branch-index order. -/
theorem tryJoinPoll_allOk {K : Nat} {sts : List (MaybeDone S E)} {ss : List S}
    (h : List.Forall₂ (willOkIn K) sts ss) :
    (sts.any pendOf = true ∧
      tryJoinPoll sts = some (.pending, sts.map stepm, List.range' 0 sts.length)) ∨
    tryJoinPoll sts =
      some (.ready (.ok ss), ss.map (fun _ => MaybeDone.gone), List.range' 0 sts.length) := by
  have hng : ∀ m ∈ sts, m ≠ MaybeDone.gone := fun m hm => by
    obtain ⟨s, hs⟩ := forall₂_exists_left h m hm
    exact willOkIn_ne_gone hs
  have hsome := scan_isSome sts 0 hng
  cases hscan : scan 0 sts with
  | none => rw [hscan] at hsome; simp at hsome
  | some r =>
    cases r with
    | earlyErr e sts0 tr0 =>
      obtain ⟨k, hk, -, hst, -, -, -⟩ := scan_earlyErr_spec sts 0 e sts0 tr0 hscan
      have hmem : sts.getD k MaybeDone.gone ∈ sts := by
        rw [List.getD_eq_getElem sts MaybeDone.gone hk]
        exact List.getElem_mem hk
      obtain ⟨s, hs⟩ := forall₂_exists_left h _ hmem
      have herr := willOkIn_errAfter hs
      rw [errAfter, hst] at herr
      simp at herr
    | fellThrough p sts0 tr0 =>
      obtain ⟨htr, hsts0, hp, -⟩ := scan_fellThrough_spec sts 0 p sts0 tr0 hscan
      cases hpall : sts.any pendOf with
      | true =>
        left
        refine ⟨rfl, ?_⟩
        rw [hpall] at hp
        subst hp hsts0 htr
        simp [tryJoinPoll, hscan]
      | false =>
        right
        have hall : ∀ m ∈ sts, pendOf m = false := by
          intro m hm
          have := List.any_eq_false.mp hpall m hm
          simpa using this
        have hmap := forall₂_stepm_done h hall
        rw [hpall] at hp
        subst hp htr
        have hlen : sts0 = ss.map (fun s => MaybeDone.done (.ok s)) := by
          rw [hsts0, hmap]
        subst hlen
        simp [tryJoinPoll, hscan, buildTuple_ok]

/-- An all-Ok configuration with time bound `K` resolves to the success
tuple within `K + 1` polls. -/
theorem tryJoinRun_allOk (K : Nat) :
    ∀ {sts : List (MaybeDone S E)} {ss : List S},
      List.Forall₂ (willOkIn K) sts ss →
      (tryJoinRun (K + 1) sts).value? = some (.ok ss) := by
  induction K with
  | zero =>
    intro sts ss h
    rcases tryJoinPoll_allOk h with ⟨hpend, -⟩ | hpoll
    · have hf : sts.any pendOf = false := List.any_eq_false.mpr (fun m hm => by
        obtain ⟨s, hs⟩ := forall₂_exists_left h m hm
        simp [willOkIn_zero_pendOf hs])
      rw [hf] at hpend
      cases hpend
    · simp [tryJoinRun, hpoll, RunResult.value?]
  | succ K ih =>
    intro sts ss h
    rcases tryJoinPoll_allOk h with ⟨-, hpoll⟩ | hpoll
    · have h2 := forall₂_step h
      simp only [tryJoinRun, hpoll]
      exact ih h2
    · simp [tryJoinRun, hpoll, RunResult.value?]

/-- Branches that each eventually complete with `Ok` admit a common time
bound. -/
theorem exists_willOkIn_bound :
    ∀ {bs : List (Behavior S E)} {ss : List S},
      List.Forall₂ (fun b s => ∃ k, completesAt b k (.ok s)) bs ss →
      ∃ K, List.Forall₂ (willOkIn K) (mkState bs) ss := by
  intro bs ss h
  induction h with
  | nil => exact ⟨0, by simp [mkState]⟩
  | cons hr hrest ih =>
    obtain ⟨k, hk⟩ := hr
    obtain ⟨K, hK⟩ := ih
    refine ⟨max k K, ?_⟩
    simp only [mkState, List.map_cons] at hK ⊢
    refine List.Forall₂.cons ?_ (hK.imp (fun a b => willOkIn_mono (le_max_right k K)))
    exact Or.inr ⟨_, k, rfl, le_max_left k K, hk⟩

/-- Inversion of one driver poll: the three possible results and the scan
outcomes they come from. -/
theorem tryJoinPoll_inv {sts : List (MaybeDone S E)}
    {res : Poll (Except E (List S))} {sts' : List (MaybeDone S E)} {tr : List Nat}
    (h : tryJoinPoll sts = some (res, sts', tr)) :
    (∃ e, res = .ready (.error e) ∧ scan 0 sts = some (.earlyErr e sts' tr)) ∨
    (res = .pending ∧ scan 0 sts = some (.fellThrough true sts' tr)) ∨
    (∃ ss sts0, res = .ready (.ok ss) ∧ scan 0 sts = some (.fellThrough false sts0 tr) ∧
      buildTuple sts0 = some (ss, sts')) := by
  cases hscan : scan 0 sts with
  | none => simp [tryJoinPoll, hscan] at h
  | some r =>
    cases r with
    | earlyErr e sts0 tr0 =>
      have hval : tryJoinPoll sts = some (.ready (.error e), sts0, tr0) := by
        simp [tryJoinPoll, hscan]
      rw [hval] at h
      injection h with h1
      injection h1 with ha h2
      injection h2 with hb hc
      subst ha; subst hb; subst hc
      exact Or.inl ⟨e, rfl, rfl⟩
    | fellThrough p sts0 tr0 =>
      cases p with
      | true =>
        have hval : tryJoinPoll sts = some (.pending, sts0, tr0) := by
          simp [tryJoinPoll, hscan]
        rw [hval] at h
        injection h with h1
        injection h1 with ha h2
        injection h2 with hb hc
        subst ha; subst hb; subst hc
        exact Or.inr (Or.inl ⟨rfl, rfl⟩)
      | false =>
        cases hbt : buildTuple sts0 with
        | none => simp [tryJoinPoll, hscan, hbt] at h
        | some r0 =>
          obtain ⟨ss0, sts1⟩ := r0
          have hval : tryJoinPoll sts = some (.ready (.ok ss0), sts1, tr0) := by
            simp [tryJoinPoll, hscan, hbt]
          rw [hval] at h
          injection h with h1
          injection h1 with ha h2
          injection h2 with hb hc
          subst ha; subst hb; subst hc
          exact Or.inr (Or.inr ⟨ss0, sts0, rfl, rfl, hbt⟩)

/-- Every branch state in a list of all-`Ok` completed branches. -/
theorem all_done_ok_shape :
    ∀ (sts : List (MaybeDone S E)),
      (∀ m ∈ sts, ∃ s, m = .done (.ok s)) →
      ∃ ss : List S, sts = ss.map (fun s => MaybeDone.done (.ok s))
  | [], _ => ⟨[], rfl⟩
  | m :: rest, h => by
    obtain ⟨s, hs⟩ := h m (by simp)
    obtain ⟨ss, hss⟩ := all_done_ok_shape rest (fun x hx => h x (by simp [hx]))
    exact ⟨s :: ss, by simp [hs, hss]⟩

/-- The driver poll never panics when no branch has had its output
taken. -/
theorem tryJoinPoll_isSome {sts : List (MaybeDone S E)}
    (hng : ∀ m ∈ sts, m ≠ .gone) : (tryJoinPoll sts).isSome := by
  have hsome := scan_isSome sts 0 hng
  cases hscan : scan 0 sts with
  | none => rw [hscan] at hsome; simp at hsome
  | some r =>
    cases r with
    | earlyErr e sts0 tr0 => simp [tryJoinPoll, hscan]
    | fellThrough p sts0 tr0 =>
      obtain ⟨-, hsts0, hp, herr⟩ := scan_fellThrough_spec sts 0 p sts0 tr0 hscan
      cases p with
      | true => simp [tryJoinPoll, hscan]
      | false =>
        have hallp : ∀ m ∈ sts, pendOf m = false := by
          intro m hm
          have := List.any_eq_false.mp hp.symm m hm
          simpa using this
        have hshape : ∀ m' ∈ sts0, ∃ s, m' = MaybeDone.done (.ok s) := by
          intro m' hm'
          rw [hsts0] at hm'
          obtain ⟨m, hm, rfl⟩ := List.mem_map.mp hm'
          obtain ⟨out, hout⟩ := stepm_of_not_pendOf (hng m hm) (hallp m hm)
          cases out with
          | ok s => exact ⟨s, hout⟩
          | error e =>
            exfalso
            have := herr m hm
            rw [errAfter, hout] at this
            simp at this
        obtain ⟨ss0, rfl⟩ := all_done_ok_shape sts0 hshape
        simp [tryJoinPoll, hscan, buildTuple_ok]

/-- A full run started from freshly wrapped branches never panics. -/
theorem tryJoinRun_no_fatal_aux :
    ∀ (fuel : Nat) (sts : List (MaybeDone S E)),
      (∀ m ∈ sts, m ≠ .gone) → (tryJoinRun fuel sts).isPanic = false
  | 0, sts, _ => rfl
  | fuel + 1, sts, hng => by
    have hsome := tryJoinPoll_isSome hng
    cases hp : tryJoinPoll sts with
    | none => rw [hp] at hsome; simp at hsome
    | some r =>
      obtain ⟨res, sts', tr⟩ := r
      cases res with
      | ready r0 => simp [tryJoinRun, hp, RunResult.isPanic]
      | pending =>
        rcases tryJoinPoll_inv hp with ⟨e, he, -⟩ | ⟨-, hscan⟩ | ⟨ss, sts0, he, -, -⟩
        · cases he
        · obtain ⟨-, hsts', -, -⟩ := scan_fellThrough_spec sts 0 true sts' tr hscan
          have hng' : ∀ m ∈ sts', m ≠ MaybeDone.gone := by
            intro m hm
            rw [hsts'] at hm
            obtain ⟨m0, hm0, rfl⟩ := List.mem_map.mp hm
            exact stepm_ne_gone (hng m0 hm0)
          simp only [tryJoinRun, hp]
          exact tryJoinRun_no_fatal_aux fuel sts' hng'
        · cases he

/-- Indexing into the branch states after one poll of every branch. -/
theorem getD_map_stepm (sts : List (MaybeDone S E)) (j : Nat) (hj : j < sts.length) :
    (sts.map stepm).getD j .gone = stepm (sts.getD j .gone) := by
  rw [List.getD_eq_getElem (sts.map stepm) MaybeDone.gone (by simpa using hj),
    List.getD_eq_getElem sts MaybeDone.gone hj, List.getElem_map]

/-- Indexing into the branch states after an early error return at branch
`k`: branches before `k` are stepped once, branch `k` is `gone`, branches
after `k` are untouched. -/
theorem getD_err_state :
    ∀ (sts : List (MaybeDone S E)) (k : Nat), k < sts.length → ∀ (j : Nat),
      ((sts.take k).map stepm ++ .gone :: sts.drop (k + 1)).getD j .gone =
        (if j < k then stepm (sts.getD j .gone)
         else if j = k then .gone else sts.getD j .gone)
  | [], k, hk, j => by simp at hk
  | m :: rest, 0, hk, j => by
    cases j with
    | zero => simp
    | succ j => simp [List.getD_cons_succ]
  | m :: rest, k + 1, hk, j => by
    cases j with
    | zero => simp
    | succ j =>
      have ih := getD_err_state rest k (by simpa using hk) j
      simp only [List.take_succ_cons, List.map_cons, List.cons_append, List.getD_cons_succ,
        List.drop_succ_cons]
      rw [ih]
      by_cases h1 : j < k
      · simp [h1, Nat.succ_lt_succ h1]
      · have h1' : ¬ (j + 1 < k + 1) := by omega
        by_cases h2 : j = k
        · simp [h1, h1', h2]
        · have h2' : ¬ (j + 1 = k + 1) := by omega
          simp [h1, h1', h2, h2']

/-- Counting occurrences in a contiguous index range. -/
theorem count_range' (s n a : Nat) :
    (List.range' s n).count a ≤ 1 ∧
      (a ∈ List.range' s n → (List.range' s n).count a = 1) := by
  have hnd : (List.range' s n).Nodup := List.nodup_range' ..
  have hle := List.nodup_iff_count_le_one.mp hnd a
  refine ⟨hle, fun hmem => ?_⟩
  have hpos := List.count_pos_iff.mpr hmem
  omega

/-- Claim C1: for every arity `N` and every tuple of branches that each
eventually complete with `Ok sᵢ`, the combinator resolves to
`Ok (s₀, …, sₙ₋₁)`: the success tuple carries each branch's output in
ascending branch-index order, regardless of the order in which the
branches completed. -/
theorem try_join_all_ok (bs : List (Behavior S E)) (ss : List S)
    (h : List.Forall₂ (fun b s => ∃ k, completesAt b k (.ok s)) bs ss) :
    ∃ fuel, (tryJoinRun fuel (mkState bs)).value? = some (.ok ss) := by
  obtain ⟨K, hK⟩ := exists_willOkIn_bound h
  exact ⟨K + 1, tryJoinRun_allOk K hK⟩

/-- Witness for C1: branch 0 completes with `Ok 10` only after one pending
poll while branch 1 completes immediately with `Ok 20`; the combinator
still delivers `[10, 20]` in branch-index order. -/
theorem try_join_all_ok_witness :
    ∃ fuel,
      (tryJoinRun fuel
        (mkState [after 1 (.ok 10), (after 0 (.ok 20) : Behavior Nat String)])).value? =
        some (.ok [10, 20]) :=
  try_join_all_ok _ _ (by
    refine List.Forall₂.cons ⟨1, rfl, ?_⟩ (List.Forall₂.cons ⟨0, rfl, ?_⟩ List.Forall₂.nil)
    · intro j hj
      interval_cases j
      rfl
    · intro j hj
      exact absurd hj (Nat.not_lt_zero j))

/-- Claim C2: when some branch is observed ready with an `Err` during a
driver poll, the closure returns `Ready(Err e)` at once, `e` being the
error of the lowest-indexed branch that is `Err` in that poll (error wins
over same-poll success; among several `Err`s the lowest index wins).  The
error is moved out of its branch (that branch alone becomes `gone`),
branches before it are stepped once, branches after it untouched, and the
trace shows that exactly branches `0..i` were polled, in order — a single
`Err` return. -/
theorem try_join_first_err (sts : List (MaybeDone S E)) (e : E) (i : Nat)
    (hng : ∀ m ∈ sts, m ≠ .gone)
    (hi : i < sts.length)
    (he : stepm (sts.getD i .gone) = .done (.error e))
    (hmin : ∀ j, j < i → errAfter (sts.getD j .gone) = false) :
    tryJoinPoll sts =
      some (.ready (.error e),
        (sts.take i).map stepm ++ .gone :: sts.drop (i + 1),
        List.range' 0 (i + 1)) := by
  have hsome := scan_isSome sts 0 hng
  cases hscan : scan 0 sts with
  | none => rw [hscan] at hsome; simp at hsome
  | some r =>
    cases r with
    | fellThrough p sts0 tr0 =>
      obtain ⟨-, -, -, herr⟩ := scan_fellThrough_spec sts 0 p sts0 tr0 hscan
      have hmem : sts.getD i MaybeDone.gone ∈ sts := by
        rw [List.getD_eq_getElem sts MaybeDone.gone hi]
        exact List.getElem_mem hi
      have hcontra := herr _ hmem
      rw [errAfter, he] at hcontra
      simp at hcontra
    | earlyErr e0 sts0 tr0 =>
      obtain ⟨k, hk, htr, hst, -, hbefore, hsts0⟩ :=
        scan_earlyErr_spec sts 0 e0 sts0 tr0 hscan
      have hki : k = i := by
        rcases Nat.lt_trichotomy k i with hlt | heq | hgt
        · have hcontra := hmin k hlt
          rw [errAfter, hst] at hcontra
          simp at hcontra
        · exact heq
        · have hcontra := hbefore i hgt
          rw [errAfter, he] at hcontra
          simp at hcontra
      subst hki
      rw [he] at hst
      injection hst with hst1
      injection hst1 with hst2
      subst hst2
      simp [tryJoinPoll, hscan, hsts0, htr]

/-- Witness for C2: three branches — index 0 already ready with `Ok 5`,
index 1 erroring with "e" on this poll, index 2 already ready with
`Err "f"`; the poll returns `Err "e"` (error wins over the index-0
success, index 1 beats index 2), takes only branch 1's output, and polled
only branches 0 and 1. -/
theorem try_join_first_err_witness :
    tryJoinPoll
        [MaybeDone.done (.ok (5 : Nat)), .future (after 0 (.error "e")), .done (.error "f")] =
      some (.ready (.error "e"),
        [MaybeDone.done (.ok 5), .gone, .done (.error "f")],
        [0, 1]) :=
  try_join_first_err
    [MaybeDone.done (.ok (5 : Nat)), .future (after 0 (.error "e")), .done (.error "f")]
    "e" 1
    (by intro m hm; fin_cases hm <;> simp)
    (by simp)
    rfl
    (by intro j hj; interval_cases j; rfl)

/-- Claim C3: with no branches the combinator resolves on its very first
poll to `Ok ()` (the empty tuple), never returning `Pending`. -/
theorem try_join_empty (S E : Type) (fuel : Nat) :
    tryJoinPoll ([] : List (MaybeDone S E)) = some (.ready (.ok []), [], []) ∧
    tryJoinRun (fuel + 1) ([] : List (MaybeDone S E)) = .resolved (.ok []) [] :=
  ⟨rfl, rfl⟩

/-- Counterexample to claim C4 as stated: in the driver poll below,
branch 1 is not yet completed (its state is `future` and it stays
`future`), yet it is not polled — the trace is `[0]` and `1 ∉ [0]` —
because branch 0's `Err` short-circuits the scan before reaching it. -/
theorem try_join_skip_pending_cex :
    tryJoinPoll [maybe_done (after 0 (.error "x")), maybe_done (after 1 (.ok (0 : Nat)))] =
      some (.ready (.error "x"), [.gone, .future (after 1 (.ok 0))], [0]) ∧
    isPending (maybe_done (after 1 (.ok (0 : Nat)) : Behavior Nat String)) = true ∧
    (1 : Nat) ∉ ([0] : List Nat) :=
  ⟨rfl, rfl, by decide⟩

/-- Claim C4 (amended): on every invocation of the driver's poll that does
not short-circuit with an `Err`, every branch — in particular every
not-yet-completed branch — is polled; no pending branch is skipped in
such a poll. -/
theorem try_join_all_polled_unless_err (sts : List (MaybeDone S E))
    (res : Poll (Except E (List S))) (sts' : List (MaybeDone S E)) (tr : List Nat)
    (h : tryJoinPoll sts = some (res, sts', tr))
    (hne : ∀ e, res ≠ .ready (.error e)) :
    ∀ i, i < sts.length → i ∈ tr := by
  rcases tryJoinPoll_inv h with ⟨e, he, -⟩ | ⟨-, hscan⟩ | ⟨ss, sts0, -, hscan, -⟩
  · exact absurd he (hne e)
  · obtain ⟨htr, -, -, -⟩ := scan_fellThrough_spec sts 0 true sts' tr hscan
    intro i hi
    rw [htr, List.mem_range'_1]
    omega
  · obtain ⟨htr, -, -, -⟩ := scan_fellThrough_spec sts 0 false sts0 tr hscan
    intro i hi
    rw [htr, List.mem_range'_1]
    omega

/-- Witness for the amended C4: a single still-pending branch is polled
(the trace of the pending-returning poll is `[0]`). -/
theorem try_join_all_polled_unless_err_witness :
    tryJoinPoll [maybe_done (after 1 (.ok (0 : Nat)) : Behavior Nat String)] =
      some (.pending, [.future (shift (after 1 (.ok 0)))], [0]) ∧
    (0 : Nat) ∈ ([0] : List Nat) :=
  ⟨rfl,
    try_join_all_polled_unless_err
      [maybe_done (after 1 (.ok (0 : Nat)) : Behavior Nat String)]
      .pending [.future (shift (after 1 (.ok 0)))] [0] rfl
      (by intro e he; cases he) 0 (by decide)⟩

/-- Claim C5: a branch that is still pending after being polled does not
cause an early return: if branch `i` was polled in this driver poll and
reported pending, and `i` is not the last index, then branch `i + 1` is
polled in the same driver poll (so a higher-indexed branch can still make
progress or short-circuit with an `Err` while a lower-indexed branch is
pending). -/
theorem try_join_continue_after_pending (sts : List (MaybeDone S E))
    (res : Poll (Except E (List S))) (sts' : List (MaybeDone S E)) (tr : List Nat) (i : Nat)
    (h : tryJoinPoll sts = some (res, sts', tr))
    (hp : pendOf (sts.getD i .gone) = true)
    (hmem : i ∈ tr) (hlt : i + 1 < sts.length) :
    (i + 1) ∈ tr := by
  rcases tryJoinPoll_inv h with ⟨e, -, hscan⟩ | ⟨-, hscan⟩ | ⟨ss, sts0, -, hscan, -⟩
  · obtain ⟨k, hk, htr, hst, -, -, -⟩ := scan_earlyErr_spec sts 0 e sts' tr hscan
    rw [htr, List.mem_range'_1] at hmem ⊢
    have hik : i ≠ k := by
      rintro rfl
      obtain ⟨b, hb⟩ := stepm_of_pendOf hp
      rw [hb] at hst
      cases hst
    omega
  · obtain ⟨htr, -, -, -⟩ := scan_fellThrough_spec sts 0 true sts' tr hscan
    rw [htr, List.mem_range'_1]
    omega
  · obtain ⟨htr, -, -, -⟩ := scan_fellThrough_spec sts 0 false sts0 tr hscan
    rw [htr, List.mem_range'_1]
    omega

/-- Witness for C5: branch 0 is pending on this poll, yet branch 1 is
still polled in the same driver poll and its `Err` short-circuits the
combinator. -/
theorem try_join_continue_after_pending_witness :
    tryJoinPoll [maybe_done (after 1 (.ok (7 : Nat))), maybe_done (after 0 (.error "e"))] =
      some (.ready (.error "e"), [.future (shift (after 1 (.ok 7))), .gone], [0, 1]) ∧
    (1 : Nat) ∈ ([0, 1] : List Nat) :=
  ⟨rfl,
    try_join_continue_after_pending
      [maybe_done (after 1 (.ok (7 : Nat))), maybe_done (after 0 (.error "e"))]
      (.ready (.error "e")) [.future (shift (after 1 (.ok 7))), .gone] [0, 1] 0
      rfl rfl (by decide) (by decide)⟩

/-- Claim C6: completed-Ok branches remain in the ready state with their
outputs intact during intermediate polls (a pending-returning poll leaves
no branch `gone` and preserves every stored output); on an `Err` return
exactly one branch — the erroring one — has had its output taken; only on
the final all-success tuple build is every branch's output taken. -/
theorem try_join_no_partial_extraction (sts : List (MaybeDone S E))
    (hng : ∀ m ∈ sts, m ≠ .gone) :
    (∀ sts' tr, tryJoinPoll sts = some (.pending, sts', tr) →
      (∀ m ∈ sts', m ≠ .gone) ∧
      ∀ j out, sts.getD j .gone = .done out → sts'.getD j .gone = .done out) ∧
    (∀ e sts' tr, tryJoinPoll sts = some (.ready (.error e), sts', tr) →
      ∃ k, k < sts'.length ∧ sts'.getD k .gone = .gone ∧
        ∀ j, j < sts'.length → j ≠ k → sts'.getD j .gone ≠ .gone) ∧
    (∀ ss sts' tr, tryJoinPoll sts = some (.ready (.ok ss), sts', tr) →
      ∀ m ∈ sts', m = .gone) := by
  have hmemD : ∀ j, j < sts.length → sts.getD j MaybeDone.gone ∈ sts := fun j hj => by
    rw [List.getD_eq_getElem sts MaybeDone.gone hj]
    exact List.getElem_mem hj
  refine ⟨?_, ?_, ?_⟩
  · intro sts' tr h
    rcases tryJoinPoll_inv h with ⟨e, he, -⟩ | ⟨-, hscan⟩ | ⟨ss, sts0, he, -, -⟩
    · cases he
    · obtain ⟨-, hsts', -, -⟩ := scan_fellThrough_spec sts 0 true sts' tr hscan
      subst hsts'
      constructor
      · intro m hm
        obtain ⟨m0, hm0, rfl⟩ := List.mem_map.mp hm
        exact stepm_ne_gone (hng m0 hm0)
      · intro j out hout
        by_cases hj : j < sts.length
        · rw [getD_map_stepm sts j hj, hout]
          rfl
        · rw [List.getD_eq_default sts MaybeDone.gone (by omega)] at hout
          cases hout
    · cases he
  · intro e sts' tr h
    rcases tryJoinPoll_inv h with ⟨e0, he, hscan⟩ | ⟨he, -⟩ | ⟨ss, sts0, he, -, -⟩
    · injection he with he1
      injection he1 with he2
      subst he2
      obtain ⟨k, hk, -, -, -, -, hsts'⟩ := scan_earlyErr_spec sts 0 e sts' tr hscan
      have hlen : sts'.length = sts.length := by
        rw [hsts']
        simp
        omega
      refine ⟨k, by omega, ?_, ?_⟩
      · rw [hsts', getD_err_state sts k hk k]
        simp
      · intro j hj hjk
        rw [hsts', getD_err_state sts k hk j]
        by_cases hjlt : j < k
        · simp only [hjlt, if_true]
          exact stepm_ne_gone (hng _ (hmemD j (by omega)))
        · rw [if_neg hjlt, if_neg hjk]
          exact hng _ (hmemD j (by omega))
    · cases he
    · injection he with he1
      cases he1
  · intro ss sts' tr h
    rcases tryJoinPoll_inv h with ⟨e0, he, -⟩ | ⟨he, -⟩ | ⟨ss0, sts0, he, hscan, hbt⟩
    · injection he with he1
      cases he1
    · cases he
    · exact buildTuple_gone sts0 sts' ss0 hbt

/-- Witness for C6 at a concrete instance: a two-branch poll that returns
pending leaves the already-completed branch 0 in the ready state with its
`Ok 1` output still stored. -/
theorem try_join_no_partial_extraction_witness :
    ([MaybeDone.done (.ok (1 : Nat)),
        MaybeDone.future (shift (after 1 (.ok 2) : Behavior Nat String))].getD 0
      MaybeDone.gone) = MaybeDone.done (.ok 1) :=
  ((try_join_no_partial_extraction
      [MaybeDone.done (.ok (1 : Nat)), .future (after 1 (.ok 2) : Behavior Nat String)]
      (by intro m hm; fin_cases hm <;> simp)).1
    [MaybeDone.done (.ok 1), .future (shift (after 1 (.ok 2)))] [0, 1] rfl).2
    0 (.ok 1) rfl

/-- Claim C7: within every single driver poll the polled branches are
polled in strictly ascending index order: the trace of polled indices is
strictly increasing. -/
theorem try_join_ascending_order (sts : List (MaybeDone S E))
    (res : Poll (Except E (List S))) (sts' : List (MaybeDone S E)) (tr : List Nat)
    (h : tryJoinPoll sts = some (res, sts', tr)) :
    List.Pairwise (· < ·) tr := by
  rcases tryJoinPoll_inv h with ⟨e, -, hscan⟩ | ⟨-, hscan⟩ | ⟨ss, sts0, -, hscan, -⟩
  · obtain ⟨k, -, htr, -, -, -, -⟩ := scan_earlyErr_spec sts 0 e sts' tr hscan
    rw [htr]
    exact List.pairwise_lt_range' 0 (k + 1) 1 (by omega)
  · obtain ⟨htr, -, -, -⟩ := scan_fellThrough_spec sts 0 true sts' tr hscan
    rw [htr]
    exact List.pairwise_lt_range' 0 sts.length 1 (by omega)
  · obtain ⟨htr, -, -, -⟩ := scan_fellThrough_spec sts 0 false sts0 tr hscan
    rw [htr]
    exact List.pairwise_lt_range' 0 sts.length 1 (by omega)

/-- Witness for C7: a concrete two-branch poll whose trace `[0, 1]` is
strictly increasing. -/
theorem try_join_ascending_order_witness :
    tryJoinPoll (mkState [after 0 (.ok (1 : Nat)), (after 2 (.ok 2) : Behavior Nat String)]) =
      some (.pending, [.done (.ok 1), .future (shift (after 2 (.ok 2)))], [0, 1]) ∧
    List.Pairwise (· < ·) ([0, 1] : List Nat) :=
  ⟨rfl,
    try_join_ascending_order
      (mkState [after 0 (.ok (1 : Nat)), (after 2 (.ok 2) : Behavior Nat String)])
      .pending [.done (.ok 1), .future (shift (after 2 (.ok 2)))] [0, 1] rfl⟩

/-- Claim C8: for the concrete instance
`try_all(ok(1), err("boom"), after(5, Ok(3)))` the combinator returns
`Err "boom"` on the first outer poll; branch 2 is polled zero times (hence
at most once) and is still pending when the combinator returns (it is then
dropped with the aggregate). -/
theorem try_join_scenario_four :
    tryJoinPoll (mkState [after 0 (.ok (1 : Nat)), after 0 (.error "boom"), after 5 (.ok 3)]) =
      some (.ready (.error "boom"),
        [.done (.ok 1), .gone, .future (after 5 (.ok 3))],
        [0, 1]) ∧
    ([0, 1] : List Nat).count 2 = 0 ∧
    isPending (MaybeDone.future (after 5 (.ok (3 : Nat)) : Behavior Nat String)) = true :=
  ⟨rfl, by decide, rfl⟩

/-- Claim C9: the generated closure's `expect`/`unwrap` calls never fire
on a well-formed run: driving the combinator from freshly wrapped
branches, for any number of polls, never reaches a modelled panic (every
`output_mut`/`take_output` returns `Some` where the closure demands it,
and the final build only ever takes `Ok` outputs). -/
theorem try_join_no_fatal (S E : Type) (fuel : Nat) (bs : List (Behavior S E)) :
    (tryJoinRun fuel (mkState bs)).isPanic = false :=
  tryJoinRun_no_fatal_aux fuel (mkState bs) (by
    intro m hm
    obtain ⟨b, -, rfl⟩ := List.mem_map.mp hm
    simp [maybe_done])

/-- Claim C10: in every single invocation of the generated poll closure
each branch is polled at most once, and branch `i` is polled exactly once
unless some branch `j < i` was observed ready with an `Err` in the same
invocation (in which case `i` is not polled at all). -/
theorem try_join_polled_at_most_once (sts : List (MaybeDone S E))
    (res : Poll (Except E (List S))) (sts' : List (MaybeDone S E)) (tr : List Nat)
    (h : tryJoinPoll sts = some (res, sts', tr)) :
    (∀ i, tr.count i ≤ 1) ∧
    (∀ i, i < sts.length → tr.count i = 1 ∨
      (i ∉ tr ∧ ∃ j e, j < i ∧ stepm (sts.getD j .gone) = .done (.error e))) := by
  rcases tryJoinPoll_inv h with ⟨e, -, hscan⟩ | ⟨-, hscan⟩ | ⟨ss, sts0, -, hscan, -⟩
  · obtain ⟨k, hk, htr, hst, -, -, -⟩ := scan_earlyErr_spec sts 0 e sts' tr hscan
    subst htr
    refine ⟨fun i => (count_range' 0 (k + 1) i).1, fun i hi => ?_⟩
    by_cases hik : i ≤ k
    · exact Or.inl ((count_range' 0 (k + 1) i).2 (by rw [List.mem_range'_1]; omega))
    · refine Or.inr ⟨by rw [List.mem_range'_1]; omega, k, e, by omega, hst⟩
  · obtain ⟨htr, -, -, -⟩ := scan_fellThrough_spec sts 0 true sts' tr hscan
    subst htr
    exact ⟨fun i => (count_range' 0 sts.length i).1,
      fun i hi => Or.inl ((count_range' 0 sts.length i).2 (by rw [List.mem_range'_1]; omega))⟩
  · obtain ⟨htr, -, -, -⟩ := scan_fellThrough_spec sts 0 false sts0 tr hscan
    subst htr
    exact ⟨fun i => (count_range' 0 sts.length i).1,
      fun i hi => Or.inl ((count_range' 0 sts.length i).2 (by rw [List.mem_range'_1]; omega))⟩

/-- Witness for C10: for a poll that short-circuits at branch 0, branch 0
was polled exactly once and branch 1 not at all (a branch below it
errored). -/
theorem try_join_polled_at_most_once_witness :
    tryJoinPoll (mkState [after 0 (.error "z"), (after 3 (.ok (1 : Nat)) : Behavior Nat String)]) =
      some (.ready (.error "z"), [.gone, .future (after 3 (.ok 1))], [0]) ∧
    (∀ i, ([0] : List Nat).count i ≤ 1) ∧
    (∀ i, i < 2 → ([0] : List Nat).count i = 1 ∨
      (i ∉ ([0] : List Nat) ∧ ∃ j e, j < i ∧
        stepm ((mkState [after 0 (.error "z"),
          (after 3 (.ok (1 : Nat)) : Behavior Nat String)]).getD j .gone) =
          .done (.error e))) :=
  ⟨rfl,
    try_join_polled_at_most_once
      (mkState [after 0 (.error "z"), (after 3 (.ok (1 : Nat)) : Behavior Nat String)])
      (.ready (.error "z")) [.gone, .future (after 3 (.ok 1))] [0] rfl⟩

end TryJoin
